import Mathlib

/-!
Verification of the client-side data layer of a Hacker News reader.

The definitions below are a shallow embedding of the data-layer functions of
the source (constants, item/user records, the timed session caches,
single-id and batched fetching, feed pagination, the id-list resolver and the
bounded comment-tree builder).  Network effects are modelled by explicit
oracles: an item oracle maps an id to the item the upstream returns (with
absence covering null, malformed and failed responses, exactly as the per-id
catch handlers collapse them), and the single-id fetch is modelled against an
explicit HTTP outcome value so that its error behaviour is visible.
-/

namespace HN

/-- Constants lifted verbatim from the source module. -/
def MAX_FRONT_PAGE_STORIES : Nat := 30
def FETCH_CHUNK_SIZE : Nat := 15
def MAX_COMMENT_DEPTH : Nat := 5
def MAX_CHILDREN_PER_LEVEL : Nat := 10
def PAGE_SIZE : Nat := 30
def FEED_CACHE_TTL_MS : Nat := 60000
def USER_CACHE_TTL_MS : Nat := 5 * 60000
def POST_CACHE_TTL_MS : Nat := 2 * 60000

/-- Feed categories (the Section union type of the source). -/
inductive Section where
  | top | new | past | comments | ask | show | jobs | submit
deriving DecidableEq, Repr

/-- Item type tags (the type field of HNItem). -/
inductive ItemType where
  | story | comment | job | poll | pollopt
deriving DecidableEq, Repr

/-- An item record (HNItem).  Optional JSON fields are Option; the two
suppression flags use Bool with absence read as false, matching JS
truthiness checks on optional booleans. -/
structure HNItem where
  id : Int
  type : Option ItemType := none
  by_ : Option String := none
  time : Option Int := none
  title : Option String := none
  text : Option String := none
  url : Option String := none
  score : Option Int := none
  descendants : Option Int := none
  parent : Option Int := none
  kids : Option (List Int) := none
  dead : Bool := false
  deleted : Bool := false
deriving DecidableEq, Repr

/-- A user record (HNUser). -/
structure HNUser where
  id : String
  created : Int
  about : Option String := none
  karma : Int
  submitted : Option (List Int) := none
deriving DecidableEq, Repr

/-- A timed cache entry (TimedValue). -/
structure TimedValue (T : Type) where
  value : T
  createdAt : Int
deriving DecidableEq, Repr

/-- A session cache is a keyed store of timed entries; the JS Map is modelled
as a partial function from keys to entries. -/
def CacheMap (K T : Type) := K → Option (TimedValue T)

/-- The empty cache (new Map()). -/
def CacheMap.empty (K T : Type) : CacheMap K T := fun _ => none

/-- Map.delete on the model. -/
def CacheMap.del {K T : Type} [DecidableEq K] (m : CacheMap K T) (key : K) :
    CacheMap K T :=
  fun k => if k = key then none else m k

/-- Map.set on the model. -/
def CacheMap.set {K T : Type} [DecidableEq K] (m : CacheMap K T) (key : K)
    (entry : TimedValue T) : CacheMap K T :=
  fun k => if k = key then some entry else m k

/-- readTimedCache: return the stored value while its age is within
maxAgeMs; an older entry is deleted by the read, which then reports absent.
The mutation of the Map is returned as the second component, and the current
clock (Date.now()) is an explicit argument. -/
def readTimedCache {K T : Type} [DecidableEq K] (cache : CacheMap K T)
    (key : K) (maxAgeMs : Nat) (now : Int) : Option T × CacheMap K T :=
  match cache key with
  | none => (none, cache)
  | some entry =>
      if now - entry.createdAt > (maxAgeMs : Int) then
        (none, cache.del key)
      else
        (some entry.value, cache)

/-- writeTimedCache: unconditionally store the value with the current clock
as its creation time. -/
def writeTimedCache {K T : Type} [DecidableEq K] (cache : CacheMap K T)
    (key : K) (value : T) (now : Int) : CacheMap K T :=
  cache.set key { value := value, createdAt := now }

/-- UserView computes the user cache key by lowercasing the handle. -/
def userCacheKey (userId : String) : String := userId.toLower

/-- Transport-level failures: the ways the fetch call itself can reject. -/
inductive TransportErr where
  | networkError | timeout | aborted
deriving DecidableEq, Repr

/-- Errors surfaced by the fetch layer: a rejected transport, or the error
thrown by fetchJson on a non-success response (carrying the status). -/
inductive FetchErr where
  | transport (e : TransportErr)
  | requestFailed (status : Nat)
deriving DecidableEq, Repr

/-- One upstream HTTP exchange: either the transport rejects, or a response
arrives with its ok flag, status code and decoded JSON body. -/
inductive HttpOutcome (B : Type) where
  | transport (e : TransportErr)
  | response (ok : Bool) (status : Nat) (body : B)
deriving DecidableEq, Repr

/-- fetchJson: propagate transport rejections; throw on a non-ok response;
otherwise return the decoded body. -/
def fetchJson {B : Type} (r : HttpOutcome B) : Except FetchErr B :=
  match r with
  | .transport e => .error (.transport e)
  | .response ok status body =>
      if ok then .ok body else .error (.requestFailed status)

/-- The decoded JSON body of an item endpoint: a record whose id field may be
absent or non-numeric (id = none), all other fields as in HNItem. -/
structure RawItem where
  id : Option Int := none
  type : Option ItemType := none
  by_ : Option String := none
  time : Option Int := none
  title : Option String := none
  text : Option String := none
  url : Option String := none
  score : Option Int := none
  descendants : Option Int := none
  parent : Option Int := none
  kids : Option (List Int) := none
  dead : Bool := false
  deleted : Bool := false
deriving DecidableEq, Repr

/-- The item a raw payload with numeric id field n denotes. -/
def RawItem.toItem (r : RawItem) (n : Int) : HNItem :=
  { id := n, type := r.type, by_ := r.by_, time := r.time, title := r.title,
    text := r.text, url := r.url, score := r.score,
    descendants := r.descendants, parent := r.parent, kids := r.kids,
    dead := r.dead, deleted := r.deleted }

/-- fetchItemById: one fetchJson call against the item endpoint; a null body
or a body without a numeric id field yields null, and fetchJson errors
propagate. -/
def fetchItemById (r : HttpOutcome (Option RawItem)) :
    Except FetchErr (Option HNItem) :=
  match fetchJson r with
  | .error e => .error e
  | .ok none => .ok none
  | .ok (some raw) =>
      match raw.id with
      | none => .ok none
      | some n => .ok (some (raw.toItem n))

/-- Modelled after the amended wording of the single-id fetch contract: a
null payload or a payload without a numeric id field is "not found" (ok
none); a well-formed payload is returned; transport failures AND non-success
responses both propagate as errors. -/
def itemFetchContract (r : HttpOutcome (Option RawItem)) :
    Except FetchErr (Option HNItem) :=
  match r with
  | .transport e => .error (.transport e)
  | .response false status _ => .error (.requestFailed status)
  | .response true _ none => .ok none
  | .response true _ (some raw) =>
      match raw.id with
      | none => .ok none
      | some n => .ok (some (raw.toItem n))

/-- The JSON values appearing in an upstream id list: numeric or not. -/
inductive JsonVal where
  | num (n : Int)
  | other
deriving DecidableEq, Repr

/-- Filter an upstream list down to its numeric entries (the typeof id
filter applied by fetchStoryIds). -/
def numericIds (l : List JsonVal) : List Int :=
  l.filterMap (fun v => match v with | .num n => some n | .other => none)

/-- The ranked-list endpoint name chosen per section by fetchStoryIds. -/
def sectionEndpoint (sec : Section) : String :=
  if sec = .new then "newstories"
  else if sec = .ask then "askstories"
  else if sec = .show then "showstories"
  else if sec = .jobs then "jobstories"
  else "topstories"

/-- fetchStoryIds, modelled against the decoded bodies of the list
endpoints: updatesItems is the optional items field of updates.json and
lists gives the body of each ranked-list endpoint.  submit fetches nothing,
comments uses the updates items, every other section its ranked list; every
list is filtered to its numeric entries. -/
def fetchStoryIds (updatesItems : Option (List JsonVal))
    (lists : String → List JsonVal) (sec : Section) : List Int :=
  if sec = .submit then []
  else if sec = .comments then numericIds (updatesItems.getD [])
  else numericIds (lists (sectionEndpoint sec))

/-- The upstream list a section's ids are drawn from, in the words of the
spec: nothing for submit, the items field of the updates feed for comments,
the section's ranked list otherwise. -/
def rawListFor (updatesItems : Option (List JsonVal))
    (lists : String → List JsonVal) (sec : Section) : List JsonVal :=
  match sec with
  | .submit => []
  | .comments => updatesItems.getD []
  | _ => lists (sectionEndpoint sec)

/-- An item oracle: what a per-id item fetch inside a batch or tree context
delivers for each id.  none covers a null body, a malformed body and a
failed request alike, because those call sites append a catch handler
mapping every rejection to null. -/
def ItemOracle := Int → Option HNItem

/-- The inner loop of fetchItemsByIds over one chunk of results: skip
missing, deleted and dead items, append the rest in order, and stop as soon
as the running list reaches maxItems. -/
def pushLive (maxItems : Nat) (items : List HNItem) :
    List (Option HNItem) → List HNItem
  | [] => items
  | result :: rest =>
      match result with
      | none => pushLive maxItems items rest
      | some item =>
          if item.deleted || item.dead then pushLive maxItems items rest
          else if (items ++ [item]).length = maxItems then items ++ [item]
          else pushLive maxItems (items ++ [item]) rest

/-- The chunking loop of fetchItemsByIds: as long as ids remain and the
target count is not reached, fetch the next FETCH_CHUNK_SIZE ids and fold
their results through pushLive. -/
def fetchChunksLoop (oracle : ItemOracle) (ids : List Int) (maxItems : Nat)
    (startIndex : Nat) (items : List HNItem) : List HNItem :=
  if _h : startIndex < ids.length ∧ items.length < maxItems then
    fetchChunksLoop oracle ids maxItems (startIndex + FETCH_CHUNK_SIZE)
      (pushLive maxItems items
        (((ids.drop startIndex).take FETCH_CHUNK_SIZE).map oracle))
  else items
termination_by ids.length - startIndex
decreasing_by simp only [FETCH_CHUNK_SIZE]; omega

/-- fetchItemsByIds: batch fetch in chunks, starting with an empty output. -/
def fetchItemsByIds (oracle : ItemOracle) (ids : List Int)
    (maxItems : Nat) : List HNItem :=
  fetchChunksLoop oracle ids maxItems 0 []

/-- shouldRenderInSection: the per-section qualification filter. -/
def shouldRenderInSection (item : HNItem) (sec : Section) : Bool :=
  if item.dead || item.deleted then false
  else if sec = .jobs then item.type == some .job
  else if sec = .comments then
    item.type == some .comment && item.text.getD "" != ""
  else item.type == some .story || item.type == some .poll

/-- The inner loop of fetchFeedPage over one fetched chunk: keep the
qualifying items in order and stop once the page holds PAGE_SIZE items. -/
def pushQualifying (sec : Section) (pageItems : List HNItem) :
    List HNItem → List HNItem
  | [] => pageItems
  | item :: rest =>
      if !shouldRenderInSection item sec then pushQualifying sec pageItems rest
      else if (pageItems ++ [item]).length = PAGE_SIZE then pageItems ++ [item]
      else pushQualifying sec (pageItems ++ [item]) rest

/-- The chunk loop of fetchFeedPage: while ids remain and the page is short
of PAGE_SIZE qualifying items, slice the next PAGE_SIZE ids, advance the
cursor past them, batch-fetch them and fold the result through
pushQualifying. -/
def feedPageLoop (oracle : ItemOracle) (ids : List Int) (sec : Section)
    (cursor : Nat) (pageItems : List HNItem) : List HNItem × Nat :=
  if _h : cursor < ids.length ∧ pageItems.length < PAGE_SIZE then
    if ((ids.drop cursor).take PAGE_SIZE).isEmpty then (pageItems, cursor)
    else
      feedPageLoop oracle ids sec (cursor + PAGE_SIZE)
        (pushQualifying sec pageItems
          (fetchItemsByIds oracle ((ids.drop cursor).take PAGE_SIZE)
            ((ids.drop cursor).take PAGE_SIZE).length))
  else (pageItems, cursor)
termination_by ids.length - cursor
decreasing_by simp only [PAGE_SIZE]; omega

/-- fetchFeedPage: one page of up to PAGE_SIZE qualifying items starting at
startIndex, together with the resumption cursor. -/
def fetchFeedPage (oracle : ItemOracle) (ids : List Int) (sec : Section)
    (startIndex : Nat) : List HNItem × Nat :=
  feedPageLoop oracle ids sec startIndex []

/-- loadFeed starts the initial page at offset MAX_FRONT_PAGE_STORIES for
the past category and at 0 for every other category. -/
def loadFeedStartIndex (sec : Section) : Nat :=
  if sec = .past then MAX_FRONT_PAGE_STORIES else 0

/-- A chained sequence of n page fetches, each resuming at the cursor the
previous call returned; yields the concatenated items and the final
cursor. -/
def chainPages (oracle : ItemOracle) (ids : List Int) (sec : Section) :
    Nat → Nat → List HNItem × Nat
  | 0, startIndex => ([], startIndex)
  | n + 1, startIndex =>
      ((fetchFeedPage oracle ids sec startIndex).1 ++
          (chainPages oracle ids sec n
            (fetchFeedPage oracle ids sec startIndex).2).1,
        (chainPages oracle ids sec n
          (fetchFeedPage oracle ids sec startIndex).2).2)

/-- An item oracle is store-consistent when every item it returns carries
the id it was requested under, as the upstream id-addressed API does. -/
def StoreWF (oracle : ItemOracle) : Prop :=
  ∀ i item, oracle i = some item → item.id = i

/-- A comment-tree node: an item together with its expanded children. -/
inductive HNCommentNode where
  | mk (item : HNItem) (children : List HNCommentNode)

/-- The item of a node. -/
def HNCommentNode.item : HNCommentNode → HNItem
  | .mk item _ => item

/-- The children of a node. -/
def HNCommentNode.children : HNCommentNode → List HNCommentNode
  | .mk _ children => children

/-- The validity filter of buildCommentTree: a fetched item survives when it
is a comment and neither dead nor deleted. -/
def isValidComment (item : HNItem) : Bool :=
  item.type == some .comment && !item.dead && !item.deleted

/-- Apply the validity filter to one fetched result. -/
def keepValidComment (result : Option HNItem) : Option HNItem :=
  match result with
  | some item => if isValidComment item then some item else none
  | none => none

/-- buildCommentTree: return no nodes at the depth limit or on an empty id
list; otherwise take the first MAX_CHILDREN_PER_LEVEL ids, fetch them, keep
the valid comments and recurse into each survivor's child ids one level
deeper. -/
def buildCommentTree (oracle : ItemOracle) (ids : List Int) (depth : Nat) :
    List HNCommentNode :=
  if MAX_COMMENT_DEPTH ≤ depth ∨ ids = [] then []
  else
    (((ids.take MAX_CHILDREN_PER_LEVEL).map oracle).filterMap
        keepValidComment).map
      (fun item =>
        HNCommentNode.mk item
          (buildCommentTree oracle (item.kids.getD []) (depth + 1)))
termination_by MAX_COMMENT_DEPTH - depth
decreasing_by simp only [MAX_COMMENT_DEPTH] at *; omega

mutual
/-- Height of one node: one more than the height of its child forest. -/
def nodeHeight : HNCommentNode → Nat
  | .mk _ children => forestHeight children + 1
/-- Height of a forest: the maximum height of its nodes. -/
def forestHeight : List HNCommentNode → Nat
  | [] => 0
  | node :: rest => max (nodeHeight node) (forestHeight rest)
end

mutual
/-- A node is live when its item is neither dead nor deleted and all its
descendants are live. -/
def nodeLive : HNCommentNode → Bool
  | .mk item children => !item.dead && !item.deleted && forestLive children
/-- A forest is live when all its nodes are. -/
def forestLive : List HNCommentNode → Bool
  | [] => true
  | node :: rest => nodeLive node && forestLive rest
end

/-- Sequence a list of optional results, failing if any fails; this is the
shape of Promise.all over a mapped list in the Option monad. -/
def optionTraverse {A B : Type} (f : A → Option B) : List A → Option (List B)
  | [] => some []
  | a :: rest =>
      match f a, optionTraverse f rest with
      | some b, some bs => some (b :: bs)
      | _, _ => none

/-- A fuel-indexed rendering of buildCommentTree used to settle termination:
it runs out of fuel explicitly (none) instead of relying on well-founded
recursion, so bounded fuel sufficing is a statement about the recursion
depth of the source function. -/
def buildCommentTreeFuel (oracle : ItemOracle) :
    Nat → List Int → Nat → Option (List HNCommentNode)
  | 0, _, _ => none
  | fuel + 1, ids, depth =>
      if MAX_COMMENT_DEPTH ≤ depth ∨ ids = [] then some []
      else
        optionTraverse
          (fun item =>
            (buildCommentTreeFuel oracle fuel (item.kids.getD [])
                (depth + 1)).map
              (fun children => HNCommentNode.mk item children))
          (((ids.take MAX_CHILDREN_PER_LEVEL).map oracle).filterMap
            keepValidComment)

/-- The state and cache writes an asynchronous operation can perform. -/
inductive CWrite where
  | setItem | setComments | setLoadStateReady | writePostCache
  | setIds | setItems | setNextFetchIndex | setFeedLoadStateReady
  | writeFeedCache
deriving DecidableEq, Repr

/-- The code that runs when an awaited step resolves: whether it begins by
returning early on an aborted signal, and the writes it performs. -/
structure Segment where
  checkAbort : Bool
  writes : List CWrite
deriving DecidableEq, Repr

/-- One awaited step of an async operation: whether the awaited promise
rejects when the cancellation signal fires while it is in flight (a bare
fetch does; a call whose internal fetches are caught resolves anyway), and
the continuation that runs if it resolves. -/
structure AwaitStep where
  rejectsWhenAborted : Bool
  cont : Segment
deriving DecidableEq, Repr

/-- An async operation: its awaited steps in order plus its catch handler,
described by whether the handler returns early on an aborted signal and the
writes it performs otherwise. -/
structure AsyncProc where
  steps : List AwaitStep
  catchChecksAbort : Bool
  catchWrites : List CWrite
deriving DecidableEq, Repr

/-- Whether the signal is already aborted when await number idx is in
flight, for a schedule that fires the abort during await number k. -/
def abortedAt (abort : Option Nat) (idx : Nat) : Bool :=
  match abort with
  | some k => k ≤ idx
  | none => false

/-- The writes an operation performs at a time when its cancellation signal
has already fired, under the given abort schedule.  Before the abort point
every continuation runs normally (those writes are pre-cancellation and not
collected); from the abort point on, a rejecting await diverts to the catch
handler, a guarded continuation returns early, and an unguarded continuation
still performs its writes. -/
def abortedWritesAux (catchChecksAbort : Bool) (catchWrites : List CWrite)
    (abort : Option Nat) : List AwaitStep → Nat → List CWrite
  | [], _ => []
  | step :: rest, idx =>
      if abortedAt abort idx then
        if step.rejectsWhenAborted then
          if catchChecksAbort then [] else catchWrites
        else if step.cont.checkAbort then []
        else
          step.cont.writes ++
            abortedWritesAux catchChecksAbort catchWrites abort rest (idx + 1)
      else abortedWritesAux catchChecksAbort catchWrites abort rest (idx + 1)

/-- The post-cancellation writes of a whole operation. -/
def abortedWrites (p : AsyncProc) (abort : Option Nat) : List CWrite :=
  abortedWritesAux p.catchChecksAbort p.catchWrites abort p.steps 0

/-- loadFeed as an async operation: await fetchStoryIds (a bare fetch, so it
rejects when aborted) with a continuation that returns early on an aborted
signal; then await fetchFeedPage (whose per-id fetches are caught, so it
resolves even when aborted) with a continuation that again returns early on
an aborted signal before writing state and the feed cache; the catch handler
returns early on an aborted signal. -/
def loadFeedProc : AsyncProc :=
  { steps :=
      [ { rejectsWhenAborted := true,
          cont := { checkAbort := true, writes := [] } },
        { rejectsWhenAborted := false,
          cont := { checkAbort := true,
                    writes := [.setIds, .setItems, .setNextFetchIndex,
                               .setFeedLoadStateReady, .writeFeedCache] } } ],
    catchChecksAbort := true,
    catchWrites := [] }

/-- The PostView load effect as an async operation: await fetchItemById (a
bare fetch, rejecting when aborted) with a continuation that calls setItem
without checking the signal; then await buildCommentTree (whose per-id
fetches are caught, so it resolves even when aborted) with a continuation
that calls setComments and setLoadState and writes the post cache without
checking the signal; the catch handler returns early on an aborted
signal. -/
def postViewLoadProc : AsyncProc :=
  { steps :=
      [ { rejectsWhenAborted := true,
          cont := { checkAbort := false, writes := [.setItem] } },
        { rejectsWhenAborted := false,
          cont := { checkAbort := false,
                    writes := [.setComments, .setLoadStateReady,
                               .writePostCache] } } ],
    catchChecksAbort := true,
    catchWrites := [] }

/-- A section-qualification predicate following the words of the spec: jobs
keeps only job items, comments keeps only comment items with non-empty body
text, every other category keeps only stories and polls; suppressed items
never qualify. -/
def qualifiesSpec (item : HNItem) (sec : Section) : Prop :=
  item.dead = false ∧ item.deleted = false ∧
    (match sec with
     | .jobs => item.type = some ItemType.job
     | .comments => item.type = some ItemType.comment ∧ item.text.getD "" ≠ ""
     | _ => item.type = some ItemType.story ∨ item.type = some ItemType.poll)

/-- A sample upstream store returning a live story for every id, used to
instantiate hypotheses at concrete inputs. -/
def storyOracle : ItemOracle :=
  fun i => some { id := i, type := some ItemType.story }

/-! ## Theorems -/

theorem forestHeight_le_iff (c : Nat) (forest : List HNCommentNode) :
    forestHeight forest ≤ c ↔ ∀ node ∈ forest, nodeHeight node ≤ c := by
  induction forest with
  | nil => simp [forestHeight]
  | cons node rest ih => simp [forestHeight, Nat.max_le, ih]

theorem forestLive_eq_true_iff (forest : List HNCommentNode) :
    forestLive forest = true ↔ ∀ node ∈ forest, nodeLive node = true := by
  induction forest with
  | nil => simp [forestLive]
  | cons node rest ih => simp [forestLive, ih]

theorem keepValidComment_eq_some {r : Option HNItem} {item : HNItem}
    (h : keepValidComment r = some item) : isValidComment item = true := by
  cases r with
  | none => simp [keepValidComment] at h
  | some it =>
      by_cases hv : isValidComment it = true
      · simp [keepValidComment, hv] at h
        subst h
        exact hv
      · simp [keepValidComment, Bool.eq_false_iff.mpr hv] at h

theorem isValidComment_flags {item : HNItem}
    (h : isValidComment item = true) :
    item.type = some ItemType.comment ∧ item.dead = false ∧
      item.deleted = false := by
  simp only [isValidComment, Bool.and_eq_true, beq_iff_eq, Bool.not_eq_true']
    at h
  exact ⟨h.1.1, h.1.2, h.2⟩

theorem buildCommentTree_height_fuel (oracle : ItemOracle) (fuel : Nat) :
    ∀ depth ids, MAX_COMMENT_DEPTH - depth ≤ fuel →
      forestHeight (buildCommentTree oracle ids depth) ≤
        MAX_COMMENT_DEPTH - depth := by
  induction fuel with
  | zero =>
      intro depth ids hf
      rw [buildCommentTree,
        if_pos (Or.inl (by omega : MAX_COMMENT_DEPTH ≤ depth))]
      simp [forestHeight]
  | succ fuel ih =>
      intro depth ids hf
      by_cases hd : MAX_COMMENT_DEPTH ≤ depth ∨ ids = []
      · rw [buildCommentTree, if_pos hd]
        simp [forestHeight]
      · rw [buildCommentTree, if_neg hd]
        rw [forestHeight_le_iff]
        intro node hnode
        simp only [List.mem_map] at hnode
        obtain ⟨item, hitem, rfl⟩ := hnode
        have hdepth : ¬ MAX_COMMENT_DEPTH ≤ depth := fun hh => hd (Or.inl hh)
        have hrec := ih (depth + 1) (item.kids.getD []) (by omega)
        simp only [nodeHeight]
        omega

theorem buildCommentTree_live_fuel (oracle : ItemOracle) (fuel : Nat) :
    ∀ depth ids, MAX_COMMENT_DEPTH - depth ≤ fuel →
      forestLive (buildCommentTree oracle ids depth) = true := by
  induction fuel with
  | zero =>
      intro depth ids hf
      rw [buildCommentTree,
        if_pos (Or.inl (by omega : MAX_COMMENT_DEPTH ≤ depth))]
      simp [forestLive]
  | succ fuel ih =>
      intro depth ids hf
      by_cases hd : MAX_COMMENT_DEPTH ≤ depth ∨ ids = []
      · rw [buildCommentTree, if_pos hd]
        simp [forestLive]
      · rw [buildCommentTree, if_neg hd]
        rw [forestLive_eq_true_iff]
        intro node hnode
        simp only [List.mem_map] at hnode
        obtain ⟨item, hitem, rfl⟩ := hnode
        simp only [List.mem_filterMap] at hitem
        obtain ⟨r, hr, hkeep⟩ := hitem
        obtain ⟨_, hdead, hdel⟩ :=
          isValidComment_flags (keepValidComment_eq_some hkeep)
        have hdepth : ¬ MAX_COMMENT_DEPTH ≤ depth := fun hh => hd (Or.inl hh)
        have hrec := ih (depth + 1) (item.kids.getD []) (by omega)
        simp [nodeLive, hdead, hdel, hrec]

theorem optionTraverse_eq_map {A B : Type} (f : A → Option B) (g : A → B)
    (l : List A) (h : ∀ a ∈ l, f a = some (g a)) :
    optionTraverse f l = some (l.map g) := by
  induction l with
  | nil => simp [optionTraverse]
  | cons a rest ih =>
      rw [optionTraverse, h a (by simp),
        ih (fun x hx => h x (List.mem_cons_of_mem a hx))]
      simp

theorem buildCommentTreeFuel_eq (oracle : ItemOracle) (fuel : Nat) :
    ∀ ids depth, MAX_COMMENT_DEPTH - depth < fuel →
      buildCommentTreeFuel oracle fuel ids depth =
        some (buildCommentTree oracle ids depth) := by
  induction fuel with
  | zero => intro ids depth hf; omega
  | succ fuel ih =>
      intro ids depth hf
      rw [buildCommentTreeFuel]
      by_cases hd : MAX_COMMENT_DEPTH ≤ depth ∨ ids = []
      · rw [if_pos hd, buildCommentTree, if_pos hd]
      · rw [if_neg hd, buildCommentTree, if_neg hd]
        apply optionTraverse_eq_map
        intro item hitem
        have hdepth : ¬ MAX_COMMENT_DEPTH ≤ depth := fun hh => hd (Or.inl hh)
        rw [ih (item.kids.getD []) (depth + 1) (by omega)]
        rfl

theorem oracle_items_ids_sublist {oracle : ItemOracle} (hwf : StoreWF oracle)
    (chunk : List Int) :
    List.Sublist
      (((chunk.map oracle).filterMap (fun r => r)).map HNItem.id) chunk := by
  induction chunk with
  | nil => simp
  | cons c rest ih =>
      cases hc : oracle c with
      | none => simpa [hc] using ih.cons c
      | some item =>
          have hid : item.id = c := hwf c item hc
          simpa [hc, hid] using ih.cons₂ c

theorem pushLive_spec (maxItems : Nat) (results : List (Option HNItem)) :
    ∀ items, ∃ t, pushLive maxItems items results = items ++ t ∧
      List.Sublist t (results.filterMap (fun r => r)) ∧
      ∀ x ∈ t, x.deleted = false ∧ x.dead = false := by
  induction results with
  | nil => exact fun items => ⟨[], by simp [pushLive], by simp, by simp⟩
  | cons r rest ih =>
      intro items
      cases r with
      | none =>
          obtain ⟨t, he, hs, hl⟩ := ih items
          exact ⟨t, by simpa [pushLive] using he, by simpa using hs, hl⟩
      | some item =>
          by_cases hdd : (item.deleted || item.dead) = true
          · obtain ⟨t, he, hs, hl⟩ := ih items
            refine ⟨t, by simpa [pushLive, hdd] using he, ?_, hl⟩
            simpa using hs.cons item
          · have hdel : item.deleted = false := by
              revert hdd; cases item.deleted <;> simp
            have hdead : item.dead = false := by
              revert hdd; cases item.dead <;> cases item.deleted <;> simp
            by_cases hlen : items.length + 1 = maxItems
            · refine ⟨[item], by simp [pushLive, hdel, hdead, hlen], ?_, ?_⟩
              · simp
              · simp [hdel, hdead]
            · obtain ⟨t, he, hs, hl⟩ := ih (items ++ [item])
              refine ⟨item :: t, ?_, ?_, ?_⟩
              · rw [show items ++ item :: t = (items ++ [item]) ++ t by simp]
                simpa [pushLive, hdel, hdead, hlen] using he
              · simpa using hs.cons₂ item
              · intro x hx
                rcases List.mem_cons.mp hx with hx | hx
                · subst hx; exact ⟨hdel, hdead⟩
                · exact hl x hx

theorem fetchChunksLoop_spec (oracle : ItemOracle) (ids : List Int)
    (maxItems : Nat) (startIndex : Nat) (items : List HNItem) :
    ∃ t, fetchChunksLoop oracle ids maxItems startIndex items = items ++ t ∧
      List.Sublist t
        (((ids.drop startIndex).map oracle).filterMap (fun r => r)) ∧
      ∀ x ∈ t, x.deleted = false ∧ x.dead = false := by
  rw [fetchChunksLoop]
  split
  · next h =>
      obtain ⟨t1, he1, hs1, hl1⟩ :=
        pushLive_spec maxItems
          (((ids.drop startIndex).take FETCH_CHUNK_SIZE).map oracle) items
      obtain ⟨t2, he2, hs2, hl2⟩ :=
        fetchChunksLoop_spec oracle ids maxItems
          (startIndex + FETCH_CHUNK_SIZE)
          (pushLive maxItems items
            (((ids.drop startIndex).take FETCH_CHUNK_SIZE).map oracle))
      refine ⟨t1 ++ t2, ?_, ?_, ?_⟩
      · rw [he2, he1, List.append_assoc]
      · have hdecomp :
            (ids.drop startIndex) =
              ((ids.drop startIndex).take FETCH_CHUNK_SIZE) ++
                ((ids.drop startIndex).drop FETCH_CHUNK_SIZE) :=
          (List.take_append_drop _ _).symm
        have hrest :
            ids.drop (startIndex + FETCH_CHUNK_SIZE) =
              (ids.drop startIndex).drop FETCH_CHUNK_SIZE := by
          rw [List.drop_drop, Nat.add_comm]
        rw [hdecomp, List.map_append, List.filterMap_append]
        exact hs1.append (hrest ▸ hs2)
      · intro x hx
        rcases List.mem_append.mp hx with hx | hx
        · exact hl1 x hx
        · exact hl2 x hx
  · exact ⟨[], by simp, by simp, by simp⟩
termination_by ids.length - startIndex
decreasing_by simp only [FETCH_CHUNK_SIZE]; omega

theorem fetchItemsByIds_spec (oracle : ItemOracle) (ids : List Int)
    (maxItems : Nat) :
    List.Sublist (fetchItemsByIds oracle ids maxItems)
      ((ids.map oracle).filterMap (fun r => r)) ∧
    ∀ x ∈ fetchItemsByIds oracle ids maxItems,
      x.deleted = false ∧ x.dead = false := by
  obtain ⟨t, he, hs, hl⟩ := fetchChunksLoop_spec oracle ids maxItems 0 []
  rw [List.drop_zero] at hs
  rw [fetchItemsByIds, he, List.nil_append]
  exact ⟨hs, hl⟩

theorem fetchItemsByIds_ids_sublist {oracle : ItemOracle}
    (hwf : StoreWF oracle) (ids : List Int) (maxItems : Nat) :
    List.Sublist ((fetchItemsByIds oracle ids maxItems).map HNItem.id) ids :=
  ((fetchItemsByIds_spec oracle ids maxItems).1.map HNItem.id).trans
    (oracle_items_ids_sublist hwf ids)

theorem pushQualifying_spec (sec : Section) (l : List HNItem) :
    ∀ pageItems, ∃ t, pushQualifying sec pageItems l = pageItems ++ t ∧
      List.Sublist t l ∧
      (∀ x ∈ t, shouldRenderInSection x sec = true) ∧
      (pageItems.length < PAGE_SIZE →
        (pushQualifying sec pageItems l).length ≤ PAGE_SIZE) := by
  induction l with
  | nil =>
      intro pageItems
      refine ⟨[], by simp [pushQualifying], by simp, by simp, ?_⟩
      intro h
      simp [pushQualifying]
      omega
  | cons item rest ih =>
      intro pageItems
      by_cases hq : shouldRenderInSection item sec = true
      · by_cases hlen : pageItems.length + 1 = PAGE_SIZE
        · refine ⟨[item], by simp [pushQualifying, hq, hlen], ?_, ?_, ?_⟩
          · simp
          · simp [hq]
          · intro _
            have hstep : pushQualifying sec pageItems (item :: rest) =
                pageItems ++ [item] := by
              simp [pushQualifying, hq, hlen]
            rw [hstep]
            simp
            omega
        · obtain ⟨t, he, hs, hr, hb⟩ := ih (pageItems ++ [item])
          have hstep : pushQualifying sec pageItems (item :: rest) =
              pushQualifying sec (pageItems ++ [item]) rest := by
            simp [pushQualifying, hq, hlen]
          refine ⟨item :: t, ?_, ?_, ?_, ?_⟩
          · rw [show pageItems ++ item :: t = (pageItems ++ [item]) ++ t by
              simp]
            rw [hstep]
            exact he
          · simpa using hs.cons₂ item
          · intro x hx
            rcases List.mem_cons.mp hx with hx | hx
            · subst hx; exact hq
            · exact hr x hx
          · intro hp
            rw [hstep]
            apply hb
            simp
            omega
      · obtain ⟨t, he, hs, hr, hb⟩ := ih pageItems
        have hstep : pushQualifying sec pageItems (item :: rest) =
            pushQualifying sec pageItems rest := by
          simp [pushQualifying, hq]
        refine ⟨t, by rw [hstep]; exact he, hs.cons item, hr, ?_⟩
        rw [hstep]
        exact hb

theorem take_page_not_empty {ids : List Int} {cursor : Nat}
    (h : cursor < ids.length) :
    ¬ (((ids.drop cursor).take PAGE_SIZE).isEmpty = true) := by
  intro hE
  have hnil : (ids.drop cursor).take PAGE_SIZE = [] := by simpa using hE
  have hlen := congrArg List.length hnil
  simp [List.length_take, List.length_drop, PAGE_SIZE] at hlen
  omega

theorem feedPageLoop_core (oracle : ItemOracle) (ids : List Int)
    (sec : Section) (cursor : Nat) (pageItems : List HNItem) :
    ∃ t, (feedPageLoop oracle ids sec cursor pageItems).1 = pageItems ++ t ∧
      (∀ x ∈ t, shouldRenderInSection x sec = true) ∧
      cursor ≤ (feedPageLoop oracle ids sec cursor pageItems).2 ∧
      (pageItems.length ≤ PAGE_SIZE →
        (feedPageLoop oracle ids sec cursor pageItems).1.length ≤ PAGE_SIZE ∧
        ((feedPageLoop oracle ids sec cursor pageItems).1.length = PAGE_SIZE ∨
          ids.length ≤ (feedPageLoop oracle ids sec cursor pageItems).2)) := by
  rw [feedPageLoop]
  split
  · next h =>
      rw [if_neg (take_page_not_empty h.1)]
      obtain ⟨t1, he1, _hs1, hr1, hb1⟩ :=
        pushQualifying_spec sec
          (fetchItemsByIds oracle ((ids.drop cursor).take PAGE_SIZE)
            ((ids.drop cursor).take PAGE_SIZE).length) pageItems
      obtain ⟨t2, he2, hr2, hmono, hb2⟩ :=
        feedPageLoop_core oracle ids sec (cursor + PAGE_SIZE)
          (pushQualifying sec pageItems
            (fetchItemsByIds oracle ((ids.drop cursor).take PAGE_SIZE)
              ((ids.drop cursor).take PAGE_SIZE).length))
      refine ⟨t1 ++ t2, ?_, ?_, ?_, ?_⟩
      · rw [he2, he1, List.append_assoc]
      · intro x hx
        rcases List.mem_append.mp hx with hx | hx
        · exact hr1 x hx
        · exact hr2 x hx
      · exact le_trans (Nat.le_add_right _ _) hmono
      · intro _
        exact hb2 (hb1 h.2)
  · next h =>
      refine ⟨[], by simp, by simp, Nat.le_refl _, ?_⟩
      intro hp
      refine ⟨hp, ?_⟩
      dsimp only
      by_cases hc : cursor < ids.length
      · left
        have hnl : ¬ pageItems.length < PAGE_SIZE := fun hh => h ⟨hc, hh⟩
        omega
      · right
        omega
termination_by ids.length - cursor
decreasing_by simp only [PAGE_SIZE]; omega

theorem feedPageLoop_window {oracle : ItemOracle} (hwf : StoreWF oracle)
    (ids : List Int) (sec : Section) (cursor : Nat)
    (pageItems : List HNItem) :
    ∃ t, (feedPageLoop oracle ids sec cursor pageItems).1 = pageItems ++ t ∧
      List.Sublist (t.map HNItem.id)
        ((ids.drop cursor).take
          ((feedPageLoop oracle ids sec cursor pageItems).2 - cursor)) := by
  rw [feedPageLoop]
  split
  · next h =>
      rw [if_neg (take_page_not_empty h.1)]
      obtain ⟨t1, he1, hs1, _hr1, _hb1⟩ :=
        pushQualifying_spec sec
          (fetchItemsByIds oracle ((ids.drop cursor).take PAGE_SIZE)
            ((ids.drop cursor).take PAGE_SIZE).length) pageItems
      obtain ⟨t2, he2, hs2⟩ :=
        feedPageLoop_window hwf ids sec (cursor + PAGE_SIZE)
          (pushQualifying sec pageItems
            (fetchItemsByIds oracle ((ids.drop cursor).take PAGE_SIZE)
              ((ids.drop cursor).take PAGE_SIZE).length))
      obtain ⟨_t3, _he3, _hr3, hmono, _hb3⟩ :=
        feedPageLoop_core oracle ids sec (cursor + PAGE_SIZE)
          (pushQualifying sec pageItems
            (fetchItemsByIds oracle ((ids.drop cursor).take PAGE_SIZE)
              ((ids.drop cursor).take PAGE_SIZE).length))
      refine ⟨t1 ++ t2, by rw [he2, he1, List.append_assoc], ?_⟩
      rw [List.map_append]
      have ht1 : List.Sublist (t1.map HNItem.id)
          ((ids.drop cursor).take PAGE_SIZE) :=
        (hs1.map HNItem.id).trans (fetchItemsByIds_ids_sublist hwf _ _)
      have hrest : ids.drop (cursor + PAGE_SIZE) =
          (ids.drop cursor).drop PAGE_SIZE := by
        rw [List.drop_drop, Nat.add_comm]
      rw [hrest] at hs2
      have happ := ht1.append hs2
      rw [← List.take_add] at happ
      have harith : PAGE_SIZE +
          ((feedPageLoop oracle ids sec (cursor + PAGE_SIZE)
              (pushQualifying sec pageItems
                (fetchItemsByIds oracle ((ids.drop cursor).take PAGE_SIZE)
                  ((ids.drop cursor).take PAGE_SIZE).length))).2 -
            (cursor + PAGE_SIZE)) =
          (feedPageLoop oracle ids sec (cursor + PAGE_SIZE)
              (pushQualifying sec pageItems
                (fetchItemsByIds oracle ((ids.drop cursor).take PAGE_SIZE)
                  ((ids.drop cursor).take PAGE_SIZE).length))).2 - cursor := by
        omega
      rwa [harith] at happ
  · next h =>
      exact ⟨[], by simp, by simp⟩
termination_by ids.length - cursor
decreasing_by simp only [PAGE_SIZE]; omega

theorem fetchFeedPage_cursor_ge (oracle : ItemOracle) (ids : List Int)
    (sec : Section) (s : Nat) : s ≤ (fetchFeedPage oracle ids sec s).2 := by
  obtain ⟨_t, _he, _hr, hmono, _hb⟩ := feedPageLoop_core oracle ids sec s []
  simpa [fetchFeedPage] using hmono

theorem fetchFeedPage_window {oracle : ItemOracle} (hwf : StoreWF oracle)
    (ids : List Int) (sec : Section) (s : Nat) :
    List.Sublist ((fetchFeedPage oracle ids sec s).1.map HNItem.id)
      ((ids.drop s).take ((fetchFeedPage oracle ids sec s).2 - s)) := by
  obtain ⟨t, he, hs⟩ := feedPageLoop_window hwf ids sec s []
  rw [List.nil_append] at he
  simp only [fetchFeedPage]
  rw [he]
  exact hs

theorem fetchFeedPage_core (oracle : ItemOracle) (ids : List Int)
    (sec : Section) (s : Nat) :
    (fetchFeedPage oracle ids sec s).1.length ≤ PAGE_SIZE ∧
    (∀ x ∈ (fetchFeedPage oracle ids sec s).1,
      shouldRenderInSection x sec = true) ∧
    ((fetchFeedPage oracle ids sec s).1.length = PAGE_SIZE ∨
      ids.length ≤ (fetchFeedPage oracle ids sec s).2) := by
  obtain ⟨t, he, hr, _hmono, hb⟩ := feedPageLoop_core oracle ids sec s []
  rw [List.nil_append] at he
  obtain ⟨hlen, hexit⟩ := hb (by simp)
  refine ⟨?_, ?_, ?_⟩
  · simpa [fetchFeedPage] using hlen
  · intro x hx
    simp only [fetchFeedPage] at hx
    rw [he] at hx
    exact hr x hx
  · simpa [fetchFeedPage] using hexit

theorem chainPages_spec {oracle : ItemOracle} (hwf : StoreWF oracle)
    (ids : List Int) (sec : Section) :
    ∀ n s, List.Sublist ((chainPages oracle ids sec n s).1.map HNItem.id)
        (ids.drop s) ∧
      s ≤ (chainPages oracle ids sec n s).2 := by
  intro n
  induction n with
  | zero => intro s; simp [chainPages]
  | succ n ih =>
      intro s
      obtain ⟨ihs, ihm⟩ := ih (fetchFeedPage oracle ids sec s).2
      have hmono := fetchFeedPage_cursor_ge oracle ids sec s
      have hw := fetchFeedPage_window hwf ids sec s
      constructor
      · rw [chainPages]
        simp only [List.map_append]
        have hrest : ids.drop (fetchFeedPage oracle ids sec s).2 =
            (ids.drop s).drop ((fetchFeedPage oracle ids sec s).2 - s) := by
          rw [List.drop_drop]
          congr 1
          omega
        rw [hrest] at ihs
        have happ := hw.append ihs
        rwa [List.take_append_drop] at happ
      · rw [chainPages]
        exact le_trans hmono ihm

theorem read_after_write {K T : Type} [DecidableEq K] (cache : CacheMap K T)
    (key : K) (value : T) (t0 t : Int) (ttl : Nat) :
    readTimedCache (writeTimedCache cache key value t0) key ttl t =
      if t - t0 ≤ (ttl : Int) then
        (some value, writeTimedCache cache key value t0)
      else
        (none, (writeTimedCache cache key value t0).del key) := by
  have hm : (writeTimedCache cache key value t0) key =
      some { value := value, createdAt := t0 } := by
    simp [writeTimedCache, CacheMap.set]
  unfold readTimedCache
  rw [hm]
  dsimp only
  by_cases h : t - t0 ≤ (ttl : Int)
  · rw [if_neg (by omega), if_pos h]
  · rw [if_pos (by omega), if_neg h]

theorem numericIds_sublist (l : List JsonVal) :
    List.Sublist ((numericIds l).map JsonVal.num) l := by
  induction l with
  | nil => simp [numericIds]
  | cons v rest ih =>
      cases v with
      | num n =>
          simpa [numericIds] using ih.cons₂ (JsonVal.num n)
      | other =>
          simpa [numericIds] using ih.cons JsonVal.other

/-- An upstream store answering every id with a live comment that has no
children, used to instantiate hypotheses at concrete inputs. -/
def commentOracle : ItemOracle :=
  fun i => some { id := i, type := some ItemType.comment }

/-- C2: for every oracle, id list and starting depth, the forest returned by
buildCommentTree has height at most MAX_COMMENT_DEPTH - depth, so no node
ever sits more than MAX_COMMENT_DEPTH levels below the root item, however
deep the upstream thread goes. -/
theorem commentTree_depth_bounded (oracle : ItemOracle) (ids : List Int)
    (depth : Nat) :
    forestHeight (buildCommentTree oracle ids depth) ≤
      MAX_COMMENT_DEPTH - depth :=
  buildCommentTree_height_fuel oracle MAX_COMMENT_DEPTH depth ids (by omega)

/-- C3: an item flagged dead or deleted never appears in a batch fetch
(every batched item has both flags clear), never qualifies for a feed page
(shouldRenderInSection rejects any item with a suppression flag set), and
never appears in a comment tree (the whole forest is live). -/
theorem suppressed_never_output (oracle : ItemOracle) (ids kidIds : List Int)
    (maxItems depth : Nat) (item : HNItem) (sec : Section) :
    (fetchItemsByIds oracle ids maxItems).all
        (fun x => !x.dead && !x.deleted) = true ∧
    (shouldRenderInSection item sec && (item.dead || item.deleted)) = false ∧
    forestLive (buildCommentTree oracle kidIds depth) = true := by
  refine ⟨?_, ?_,
    buildCommentTree_live_fuel oracle MAX_COMMENT_DEPTH depth kidIds
      (by omega)⟩
  · rw [List.all_eq_true]
    intro x hx
    obtain ⟨hdel, hdead⟩ := (fetchItemsByIds_spec oracle ids maxItems).2 x hx
    simp [hdel, hdead]
  · by_cases hdd : (item.dead || item.deleted) = true
    · have hfalse : shouldRenderInSection item sec = false := by
        simp [shouldRenderInSection, hdd]
      simp [hfalse]
    · simp only [Bool.not_eq_true] at hdd
      simp [hdd]

/-- C4: a read of an entry written at time t0, performed at time t, returns
the stored value exactly when t - t0 is at most the TTL, and otherwise
deletes the entry (the deleted key then maps to nothing) and reports absent;
the three cache classes use TTLs of 60s for feeds, 120s for posts and 300s
for users, and the user cache key is the lowercased handle. -/
theorem cache_ttl_read_semantics {K T : Type} [DecidableEq K]
    (cache : CacheMap K T) (key : K) (value : T) (t0 t : Int) (ttl : Nat)
    (userId : String) :
    (readTimedCache (writeTimedCache cache key value t0) key ttl t =
      if t - t0 ≤ (ttl : Int) then
        (some value, writeTimedCache cache key value t0)
      else (none, (writeTimedCache cache key value t0).del key)) ∧
    ((writeTimedCache cache key value t0).del key) key = none ∧
    userCacheKey userId = userId.toLower ∧
    FEED_CACHE_TTL_MS = 60000 ∧ POST_CACHE_TTL_MS = 120000 ∧
    USER_CACHE_TTL_MS = 300000 :=
  ⟨read_after_write cache key value t0 t ttl,
    by simp [CacheMap.del, writeTimedCache, CacheMap.set],
    rfl, rfl, rfl, rfl⟩

/-- C5 counterexample: a non-success upstream response (ok = false, status
500) makes fetchItemById propagate the error thrown by fetchJson; it does
not return the "not found" value, contradicting the claim that a non-success
response is treated as not found. -/
theorem fetchItemById_non_success_throws :
    fetchItemById (HttpOutcome.response false 500 none) =
        Except.error (FetchErr.requestFailed 500) ∧
      fetchItemById (HttpOutcome.response false 500 none) ≠
        Except.ok none :=
  ⟨rfl, fun hc => Except.noConfusion hc⟩

/-- C5 (amended): fetchItemById returns null exactly for a success response
whose payload is null or lacks a numeric id field, returns the decoded item
for a success response with a numeric id, and propagates an error for every
transport failure AND for every non-success response. -/
theorem fetchItemById_matches_contract (r : HttpOutcome (Option RawItem)) :
    fetchItemById r = itemFetchContract r := by
  cases r with
  | transport e => rfl
  | response ok status body => cases ok <;> cases body <;> rfl

/-- C6: in the cancellation model, loadFeed performs no write after its
signal aborts under any abort schedule, but the PostView load effect, under
the schedule that aborts while buildCommentTree is in flight, still performs
setComments, setLoadState and the post-cache write after cancellation — so
a cancelled operation's result does reach visible state and the cache. -/
theorem postView_cancellation_writes_after_abort (ab : Option Nat) :
    abortedWrites loadFeedProc ab = [] ∧
    abortedWrites postViewLoadProc (some 1) =
      [CWrite.setComments, CWrite.setLoadStateReady, CWrite.writePostCache] ∧
    CWrite.writePostCache ∈ abortedWrites postViewLoadProc (some 1) := by
  refine ⟨?_, by decide, by decide⟩
  rcases ab with _ | k
  · rfl
  · by_cases h0 : k ≤ 0
    · have hk : k = 0 := by omega
      subst hk
      rfl
    · by_cases h1 : k ≤ 1
      · have hk : k = 1 := by omega
        subst hk
        rfl
      · simp only [abortedWrites, loadFeedProc, abortedWritesAux, abortedAt]
        simp [h0, h1]

/-- C7: below the depth limit, buildCommentTree depends only on the first
MAX_CHILDREN_PER_LEVEL ids of its input (truncating the list changes
nothing), and the roots of the returned forest are exactly the valid
comments fetched for those first ids, in their original order — ids beyond
the first MAX_CHILDREN_PER_LEVEL are absent and no error occurs. -/
theorem commentTree_breadth_first_ten (oracle : ItemOracle) (ids : List Int)
    (depth : Nat) (h : depth < MAX_COMMENT_DEPTH) :
    buildCommentTree oracle ids depth =
      buildCommentTree oracle (ids.take MAX_CHILDREN_PER_LEVEL) depth ∧
    (buildCommentTree oracle ids depth).map HNCommentNode.item =
      ((ids.take MAX_CHILDREN_PER_LEVEL).map oracle).filterMap
        keepValidComment := by
  by_cases hnil : ids = []
  · subst hnil
    refine ⟨by rw [List.take_nil], ?_⟩
    rw [buildCommentTree, if_pos (Or.inr rfl)]
    simp
  · have hd : ¬ (MAX_COMMENT_DEPTH ≤ depth ∨ ids = []) := by
      rintro (hh | hh)
      · omega
      · exact hnil hh
    have hd2 : ¬ (MAX_COMMENT_DEPTH ≤ depth ∨
        ids.take MAX_CHILDREN_PER_LEVEL = []) := by
      rintro (hh | hh)
      · omega
      · have hlen := congrArg List.length hh
        rw [List.length_take, List.length_nil] at hlen
        have h10 : MAX_CHILDREN_PER_LEVEL = 10 := rfl
        exact hnil (List.length_eq_zero.mp (by omega))
    constructor
    · rw [buildCommentTree, if_neg hd]
      rw [buildCommentTree, if_neg hd2]
      rw [List.take_take, Nat.min_self]
    · rw [buildCommentTree, if_neg hd]
      rw [List.map_map]
      have hcomp : (HNCommentNode.item ∘ fun item =>
          HNCommentNode.mk item
            (buildCommentTree oracle (item.kids.getD []) (depth + 1))) =
          fun item => item := by
        funext item
        rfl
      rw [hcomp, List.map_id']

/-- C7 witness: the breadth bound instantiated at depth 0 with a store of
live childless comments and a twelve-id input list. -/
theorem commentTree_breadth_first_ten_witness :
    0 < MAX_COMMENT_DEPTH ∧
    (buildCommentTree commentOracle
        [1, 2, 3, 4, 5, 6, 7, 8, 9, 10, 11, 12] 0 =
      buildCommentTree commentOracle
        (([1, 2, 3, 4, 5, 6, 7, 8, 9, 10, 11, 12] :
            List Int).take MAX_CHILDREN_PER_LEVEL) 0 ∧
    (buildCommentTree commentOracle
        [1, 2, 3, 4, 5, 6, 7, 8, 9, 10, 11, 12] 0).map HNCommentNode.item =
      ((([1, 2, 3, 4, 5, 6, 7, 8, 9, 10, 11, 12] :
            List Int).take MAX_CHILDREN_PER_LEVEL).map
          commentOracle).filterMap keepValidComment) :=
  ⟨by decide,
    commentTree_breadth_first_ten commentOracle
      [1, 2, 3, 4, 5, 6, 7, 8, 9, 10, 11, 12] 0 (by decide)⟩

/-- C8: a fetched feed page holds at most PAGE_SIZE items, every item on it
passes the section filter, the section filter holds exactly for unsuppressed
items matching the claimed category predicate (jobs keeps jobs, comments
keeps comments with non-empty text, other categories keep stories and
polls), fetching stops only with a full page or an exhausted id list, and
the initial page of the past category starts at offset
MAX_FRONT_PAGE_STORIES. -/
theorem feedPage_assembly (oracle : ItemOracle) (ids : List Int)
    (sec : Section) (s : Nat) (item : HNItem) :
    (fetchFeedPage oracle ids sec s).1.length ≤ PAGE_SIZE ∧
    (fetchFeedPage oracle ids sec s).1.all
        (fun x => shouldRenderInSection x sec) = true ∧
    (shouldRenderInSection item sec = true ↔ qualifiesSpec item sec) ∧
    ((fetchFeedPage oracle ids sec s).1.length = PAGE_SIZE ∨
      ids.length ≤ (fetchFeedPage oracle ids sec s).2) ∧
    loadFeedStartIndex Section.past = MAX_FRONT_PAGE_STORIES := by
  obtain ⟨hlen, hall, hexit⟩ := fetchFeedPage_core oracle ids sec s
  refine ⟨hlen, ?_, ?_, hexit, rfl⟩
  · rw [List.all_eq_true]
    exact fun x hx => hall x hx
  · cases sec <;> cases hdead : item.dead <;> cases hdel : item.deleted <;>
      simp [shouldRenderInSection, qualifiesSpec, hdead, hdel,
        Bool.and_eq_true, Bool.or_eq_true, beq_iff_eq, bne_iff_ne]

/-- C9: the id-list resolver returns the empty sequence for the submit
category, returns the numeric entries of the items field of the updates
feed for the comments category, and for every category its output embeds
back into the upstream list as a subsequence — non-numeric entries are
dropped without error, order preserved. -/
theorem storyIds_resolver (updatesItems : Option (List JsonVal))
    (lists : String → List JsonVal) (sec : Section) :
    fetchStoryIds updatesItems lists Section.submit = [] ∧
    fetchStoryIds updatesItems lists Section.comments =
      numericIds (updatesItems.getD []) ∧
    List.Sublist ((fetchStoryIds updatesItems lists sec).map JsonVal.num)
      (rawListFor updatesItems lists sec) := by
  refine ⟨rfl, rfl, ?_⟩
  cases sec <;> simp [fetchStoryIds, rawListFor] <;>
    exact numericIds_sublist _

/-- C10: buildCommentTreeFuel, whose recursion is explicitly fuel-limited,
already converges to the total buildCommentTree whenever the fuel exceeds
MAX_COMMENT_DEPTH - depth — for every oracle (cyclic or repeating child
graphs included), every finite id list and every starting depth, because
each recursive call raises depth by one and the function answers without
recursing once depth reaches MAX_COMMENT_DEPTH. -/
theorem commentTree_terminates_bounded_fuel (oracle : ItemOracle)
    (ids : List Int) (depth fuel : Nat)
    (hf : MAX_COMMENT_DEPTH - depth < fuel) :
    buildCommentTreeFuel oracle fuel ids depth =
      some (buildCommentTree oracle ids depth) :=
  buildCommentTreeFuel_eq oracle fuel ids depth hf

/-- C10 witness: the fuel bound instantiated with fuel MAX_COMMENT_DEPTH + 1
at depth 0 on a one-id list. -/
theorem commentTree_terminates_bounded_fuel_witness :
    MAX_COMMENT_DEPTH - 0 < MAX_COMMENT_DEPTH + 1 ∧
      buildCommentTreeFuel commentOracle (MAX_COMMENT_DEPTH + 1) [1] 0 =
        some (buildCommentTree commentOracle [1] 0) :=
  ⟨by decide,
    commentTree_terminates_bounded_fuel commentOracle [1] 0
      (MAX_COMMENT_DEPTH + 1) (by decide)⟩

/-- C1 counterexample: with an id list containing the id 1 twice and a store
of live stories, a single chained page fetch returns the item with id 1
twice, so the concatenation of returned pages does contain duplicate ids —
the claim fails for id lists that are not duplicate-free. -/
theorem pagination_duplicates_counterexample :
    ¬ (((chainPages storyOracle [1, 1] Section.top 1 0).1.map
        HNItem.id).Nodup) := by
  have heval : (chainPages storyOracle [1, 1] Section.top 1 0).1.map
      HNItem.id = [1, 1] := by
    simp [chainPages, fetchFeedPage, feedPageLoop, fetchItemsByIds,
      fetchChunksLoop, pushQualifying, pushLive, shouldRenderInSection,
      storyOracle, PAGE_SIZE, FETCH_CHUNK_SIZE]
  rw [heval]
  decide

/-- C1 (amended): for every store-consistent oracle and every duplicate-free
id list, each page fetch returns a cursor at least its starting index, and
any chained sequence of page fetches yields items whose ids form a
duplicate-free subsequence of the id list — relative order preserved, no id
repeated, and the final cursor never below the starting index. -/
theorem pagination_chain_nodup_ordered (oracle : ItemOracle)
    (ids : List Int) (sec : Section) (n s : Nat) (hwf : StoreWF oracle)
    (hnd : ids.Nodup) :
    s ≤ (fetchFeedPage oracle ids sec s).2 ∧
    List.Sublist ((chainPages oracle ids sec n s).1.map HNItem.id) ids ∧
    ((chainPages oracle ids sec n s).1.map HNItem.id).Nodup ∧
    s ≤ (chainPages oracle ids sec n s).2 := by
  obtain ⟨hsub, hcur⟩ := chainPages_spec hwf ids sec n s
  have hsub' : List.Sublist
      ((chainPages oracle ids sec n s).1.map HNItem.id) ids :=
    hsub.trans (List.drop_sublist s ids)
  exact ⟨fetchFeedPage_cursor_ge oracle ids sec s, hsub',
    hnd.sublist hsub', hcur⟩

/-- C1 witness: the amended pagination property instantiated on the
duplicate-free id list [1, 2] with a store of live stories and two chained
page fetches from index 0. -/
theorem pagination_chain_nodup_ordered_witness :
    StoreWF storyOracle ∧ ([1, 2] : List Int).Nodup ∧
    (0 ≤ (fetchFeedPage storyOracle [1, 2] Section.top 0).2 ∧
      List.Sublist ((chainPages storyOracle [1, 2] Section.top 2 0).1.map
        HNItem.id) [1, 2] ∧
      ((chainPages storyOracle [1, 2] Section.top 2 0).1.map
        HNItem.id).Nodup ∧
      0 ≤ (chainPages storyOracle [1, 2] Section.top 2 0).2) := by
  have hwf : StoreWF storyOracle := by
    intro i item h
    injection h with h2
    rw [← h2]
  exact ⟨hwf, by decide,
    pagination_chain_nodup_ordered storyOracle [1, 2] Section.top 2 0 hwf
      (by decide)⟩

end HN
